import Mathlib

/-!
Verification development for the ZipCrack cracking engine.

This file shallowly embeds the parts of the Go sources that the
verified properties talk about:

* `internal/cracker/runner.go` — result publication (`publishResult`),
  configuration normalization (`NewRunner`);
* `internal/cracker/generator.go` — `generateBatch`;
* `internal/cracker/zipcheck.go` and the CPU verifier backend —
  target-entry selection (`findSmallestEncryptedIndex`), single-attempt
  verification (`try` / `Try`), CPU `BatchVerify`;
* the Vulkan verifier backend — GPU `BatchVerify` with batch-capacity
  truncation and device-failure folding, `downloadResults`;
* `internal/verifier/zipheader.go` — the hand-rolled ZIP header parser
  (`parseZipHeaders`, `findEOCD`, `extractZipCryptoInfo`).

Go machine integers are modelled as `Nat`/`Int` with explicit `% 2 ^ 32`
(resp. `2 ^ 64`) at the points where the Go code performs fixed-width
conversions or where overflow can occur.  External library calls (the
`yeka/zip` codec, `math/rand`, the Vulkan driver) are modelled by their
observable outcomes: a pseudo-random stream of naturals, and
success/failure flags plus a device result buffer.
-/

namespace ZipCrack

/-! ## Result publication (runner.go) -/

/-- Result mirrors `type Result struct { Found bool; Password string }`. -/
structure Result where
  found : Bool
  password : String
deriving Repr, DecidableEq

/-- The publication-relevant state of a `Runner`: the `sync.Once` guard
`onceResult` (modelled by the boolean `onceDone`: `Do` runs its body iff the
guard has not fired yet), the stored `result` field (zero value
`Result{false, ""}`), and the buffered result channel `resultCh`, modelled as
the queue of values currently buffered.  `resultCh` is created with capacity
one (`make(chan Result, 1)` in `NewRunner`). -/
structure RunnerPubState where
  onceDone : Bool
  result : Result
  resultCh : List Result
deriving Repr, DecidableEq

/-- Capacity of `resultCh` (`make(chan Result, 1)`). -/
def resultChCap : Nat := 1

/-- Initial publication state: guard not fired, zero-value result, empty
channel buffer. -/
def initPubState : RunnerPubState :=
  { onceDone := false, result := { found := false, password := "" }, resultCh := [] }

/-- Embedding of `Runner.publishResult`: inside `r.onceResult.Do` it stores
the result and performs a non-blocking send (`select` with `default`), which
enqueues iff the channel buffer has free capacity. -/
def publishResult (s : RunnerPubState) (res : Result) : RunnerPubState :=
  if s.onceDone then s
  else
    { onceDone := true
      result := res
      resultCh := if s.resultCh.length < resultChCap then s.resultCh ++ [res] else s.resultCh }

/-- A whole run's sequence of `publishResult` calls (worker publications in
arrival order, followed by the completion goroutine's final not-found
publication), folded over the initial state. -/
def runPublishes (calls : List Result) : RunnerPubState :=
  calls.foldl publishResult initPubState

/-! ## Configuration normalization (runner.go, NewRunner) -/

/-- Config mirrors the `Config` struct of `runner.go`.  `reportEvery` is a
`time.Duration`, i.e. an `int64` count of nanoseconds. -/
structure Config where
  zipBytes : List Nat
  alphabet : List Char
  minLen : Int
  maxLen : Int
  workers : Int
  batchSize : Int
  reportEvery : Int
  foundCallback : Option (String → Unit)
  backend : String

/-- The default report interval `2 * time.Second` in nanoseconds. -/
def defaultReportEvery : Int := 2 * 1000000000

/-- The construction-time fields of `Runner` built by `NewRunner`. -/
structure RunnerInit where
  cfg : Config
  statsChCap : Nat
  resultChCapacity : Nat
  counters : List Nat

/-- Embedding of `NewRunner`: normalizes non-positive `Workers` to 1,
non-positive `BatchSize` to 1024, non-positive `ReportEvery` to 2 seconds,
then builds the runner with a stats channel of capacity 8, a result channel
of capacity 1, and one zeroed counter per worker.  It never returns an
error. -/
def NewRunner (cfg : Config) : Except String RunnerInit :=
  let cfg1 := if cfg.workers ≤ 0 then { cfg with workers := 1 } else cfg
  let cfg2 := if cfg1.batchSize ≤ 0 then { cfg1 with batchSize := 1024 } else cfg1
  let cfg3 := if cfg2.reportEvery ≤ 0 then { cfg2 with reportEvery := defaultReportEvery } else cfg2
  .ok { cfg := cfg3
        statsChCap := 8
        resultChCapacity := resultChCap
        counters := List.replicate cfg3.workers.toNat 0 }

/-- Convenience projection: the configuration stored by `NewRunner`. -/
def newRunnerCfg (cfg : Config) : Config :=
  match NewRunner cfg with
  | .ok r => r.cfg
  | .error _ => cfg

/-! ## Symbol classes (charset package, Combine) -/

/-- Setting `seen[r] = true` in the Go map `seen`, modelled as a boolean
valuation on runes. -/
def charsetUpdate (seen : Char → Bool) (r : Char) : Char → Bool :=
  fun x => if x = r then true else seen x

/-- The inner loop of `Combine` over one symbol class `s`: for each rune,
if it is not yet in `seen`, mark it seen and append it to `out`. -/
def combineGo (seen : Char → Bool) (out : List Char) : List Char → (Char → Bool) × List Char
  | [] => (seen, out)
  | r :: rs =>
    if seen r then combineGo seen out rs
    else combineGo (charsetUpdate seen r) (out ++ [r]) rs

/-- The outer loop of `Combine` over the list of symbol classes. -/
def combineSets (seen : Char → Bool) (out : List Char) : List (List Char) → (Char → Bool) × List Char
  | [] => (seen, out)
  | s :: sets =>
    let p := combineGo seen out s
    combineSets p.1 p.2 sets

/-- Embedding of `charset.Combine`: merges the rune slices into one,
de-duplicated, preserving first-occurrence order. -/
def Combine (sets : List (List Char)) : List Char :=
  (combineSets (fun _ => false) [] sets).2

/-- The de-duplicated runes that the inner loop appends, starting from a
given `seen` valuation. -/
def dedupFrom (seen : Char → Bool) (l : List Char) : List Char :=
  (combineGo seen [] l).2

/-- Index of the first occurrence of `x` in `l` (length of `l` when
absent); used to state the first-occurrence ordering of `Combine`. -/
def firstIdx (x : Char) : List Char → Nat
  | [] => 0
  | y :: ys => if y = x then 0 else firstIdx x ys + 1

/-! ## Candidate generation (generator.go) -/

/-- An abstract model of the generator's pseudo-random stream
(`rand.Rand`): an infinite stream of naturals plus a position.  The only
property of `rand.Intn(n)` the code relies on is that its value lies in
`[0, n)`; drawing `stream pos % n` realizes exactly that. -/
structure Rng where
  stream : Nat → Nat
  pos : Nat

/-- Model of `rng.Intn n` for `n > 0`: a value in `[0, n)` plus the
advanced stream. -/
def Rng.intn (r : Rng) (n : Nat) : Nat × Rng :=
  (r.stream r.pos % n, { r with pos := r.pos + 1 })

/-- The inner loop of `generateBatch`: fills the `l`-rune candidate left to
right with `alphabet[rng.Intn(al)]`.  The index is always in range because
the caller established `alphabet ≠ []`; `getD`'s default is never used
then. -/
def buildCandidate (alphabet : List Char) : Nat → Rng → List Char × Rng
  | 0, rng => ([], rng)
  | n + 1, rng =>
    let p := rng.intn alphabet.length
    let q := buildCandidate alphabet n p.2
    (alphabet.getD p.1 'a' :: q.1, q.2)

/-- One iteration of the outer loop of `generateBatch`: draw the length
`l := minLen + rng.Intn(maxLen - minLen + 1)` (only when `maxLen > minLen`),
then build the candidate. -/
def genCandidate (alphabet : List Char) (minLen maxLen : Nat) (rng : Rng) : List Char × Rng :=
  let lr : Nat × Rng :=
    if minLen < maxLen then
      let p := rng.intn (maxLen - minLen + 1)
      (minLen + p.1, p.2)
    else (minLen, rng)
  buildCandidate alphabet lr.1 lr.2

/-- The outer loop of `generateBatch`, producing `count` candidates. -/
def genBatchGo (alphabet : List Char) (minLen maxLen : Nat) : Nat → Rng → List (List Char)
  | 0, _ => []
  | n + 1, rng =>
    let p := genCandidate alphabet minLen maxLen rng
    p.1 :: genBatchGo alphabet minLen maxLen n p.2

/-- Embedding of `generateBatch`: normalizes a non-positive batch size to 1,
returns `batchSize` empty candidates when the alphabet is empty, otherwise
generates `batchSize` random candidates.  Lengths and batch size are the
natural-number values of the corresponding Go `int`s (the claims quantify
over `0 ≤ minLen ≤ maxLen` only). -/
def generateBatch (alphabet : List Char) (minLen maxLen batchSize : Nat) (rng : Rng) :
    List (List Char) :=
  let bs := if batchSize ≤ 0 then 1 else batchSize
  if alphabet.length = 0 then List.replicate bs []
  else genBatchGo alphabet minLen maxLen bs rng

/-! ## CPU backend (cpu.go part of the verifier package, zipcheck.go) -/

/-- Embedding of `cpuWorker.BatchVerify`: scans the batch in order, returns
`(i, i+1)` at the first candidate for which `try` succeeds, and
`(-1, len(batch))` when none does.  The per-candidate attempt `w.try` is
abstracted by the predicate `tryf`. -/
def cpuBatchVerify (tryf : List Char → Bool) : List (List Char) → Int × Nat
  | [] => (-1, 0)
  | pw :: rest =>
    if tryf pw then (0, 1)
    else
      let p := cpuBatchVerify tryf rest
      (if 0 ≤ p.1 then p.1 + 1 else p.1, p.2 + 1)

/-- Observable outcomes of the external archive-codec calls made by one
password attempt: whether `yzip.NewReader` succeeded, how many entries the
reader exposes, and whether `Open`, the full `io.Copy` drain, and `Close`
succeeded.  The outcomes depend on the candidate password; the theorems
quantify over all of them. -/
structure AttemptOutcome where
  newReaderOk : Bool
  fileCount : Nat
  openOk : Bool
  copyOk : Bool
  closeOk : Bool
deriving Repr, DecidableEq

/-- Embedding of `cpuWorker.try`: a fresh reader over the shared bytes, a
target-index range check, `SetPassword`/`Open`, full drain, `Close`; any
failure yields `false`, and `true` needs every step to succeed. -/
def cpuTry (targetIndex : Int) (o : AttemptOutcome) : Bool :=
  if o.newReaderOk = false then false
  else if targetIndex < 0 ∨ (o.fileCount : Int) ≤ targetIndex then false
  else if o.openOk = false then false
  else o.copyOk && o.closeOk

/-- Embedding of `ZipWorker.Try` (zipcheck.go): the worker already holds its
file handle, so only `Open`, the drain, and `Close` participate. -/
def zipWorkerTry (o : AttemptOutcome) : Bool :=
  if o.openOk = false then false
  else o.copyOk && o.closeOk

/-! ## GPU backend (vulkan verifier) -/

/-- Observable outcomes of the external Vulkan calls made by one
`vulkanWorker.BatchVerify`: whether `uploadPasswordData` and
`dispatchCompute` succeeded, whether mapping the results buffer in
`downloadResults` succeeded, and the contents of the device result buffer
(one `uint32` marker per candidate slot) after the dispatch. -/
structure DeviceState where
  uploadOk : Bool
  dispatchOk : Bool
  mapResultsOk : Bool
  results : Nat → Nat

/-- The `DefaultGPUBatchSize` constant; `vulkanVerifier.NewWorker` fixes
every worker's `batchSize` to it. -/
def vulkanBatchCapacity : Nat := 4096

/-- The host-side scan in `downloadResults`: the first index `i` in
`[start, start+count)` whose result slot is nonzero, else `-1`. -/
def scanResults (f : Nat → Nat) : Nat → Nat → Int
  | _, 0 => -1
  | i, n + 1 => if f i ≠ 0 then (i : Int) else scanResults f (i + 1) n

/-- Embedding of `vulkanWorker.downloadResults`: `-1` if mapping the result
memory fails, otherwise the lowest nonzero slot among the first `batchSize`
results. -/
def downloadResults (d : DeviceState) (batchSize : Nat) : Int :=
  if d.mapResultsOk = false then -1
  else scanResults d.results 0 batchSize

/-- Embedding of `vulkanWorker.BatchVerify`: empty batches return `(-1, 0)`;
a batch longer than the worker's capacity is truncated to `cap`; an upload
or dispatch failure returns `(-1, len(batch))` over the truncated batch; a
successful dispatch returns `downloadResults` over the truncated length. -/
def vkBatchVerify (d : DeviceState) (cap : Nat) (batch : List (List Char)) : Int × Nat :=
  if batch.length = 0 then (-1, 0)
  else
    let batch1 := if cap < batch.length then batch.take cap else batch
    if d.uploadOk = false then (-1, batch1.length)
    else if d.dispatchOk = false then (-1, batch1.length)
    else (downloadResults d batch1.length, batch1.length)

/-! ## Target-entry selection (zipcheck.go, cpu verifier) -/

/-- An archive entry as observed through the `yeka/zip` reader: directory
flag, encryption flag, and the 64-bit uncompressed size. -/
structure ZipEntry where
  isDir : Bool
  isEncrypted : Bool
  uncompressedSize64 : Nat
deriving Repr, DecidableEq

/-- The sentinel `^uint64(0)` that initializes the running minimum. -/
def maxUint64 : Nat := 2 ^ 64 - 1

/-- The scanning loop shared verbatim by `findSmallestEncryptedIndex`
(cpu verifier) and `NewZipChecker` (zipcheck.go): skip directories and
unencrypted entries, keep the index of the strictly smallest uncompressed
size seen so far. -/
def fseGo : List ZipEntry → Nat → Int → Nat → Int × Nat
  | [], _, target, targetSize => (target, targetSize)
  | e :: rest, i, target, targetSize =>
    if e.isDir then fseGo rest (i + 1) target targetSize
    else if e.isEncrypted = false then fseGo rest (i + 1) target targetSize
    else if e.uncompressedSize64 < targetSize then fseGo rest (i + 1) (i : Int) e.uncompressedSize64
    else fseGo rest (i + 1) target targetSize

/-- Embedding of `findSmallestEncryptedIndex` (and of the identical
selection in `NewZipChecker`): error on an archive with no entries, scan
with the running minimum initialized to `^uint64(0)`, error if no entry was
selected. -/
def findSmallestEncryptedIndex (entries : List ZipEntry) : Except String Int :=
  if entries.length = 0 then .error "zip has no entries"
  else
    let p := fseGo entries 0 (-1) maxUint64
    if p.1 = -1 then .error "zip has no encrypted files to crack"
    else .ok p.1

/-- An entry qualifies for selection when it is not a directory and is
flagged encrypted (the claim's selection predicate). -/
def qualifies (e : ZipEntry) : Bool :=
  !e.isDir && e.isEncrypted

/-! ## ZIP header parser (zipheader.go) -/

/-- The byte at index `k` of the buffer (buffers are lists of byte values;
`% 256` makes the byte range explicit). -/
def byteAt (b : List Nat) (k : Nat) : Nat :=
  b.getD k 0 % 256

/-- Little-endian `binary.LittleEndian.Uint16(b[off:])`; `none` models the
Go runtime panic raised when fewer than 2 bytes are available. -/
def readU16 (b : List Nat) (off : Nat) : Option Nat :=
  if off + 2 ≤ b.length then some (byteAt b off + 256 * byteAt b (off + 1)) else none

/-- Little-endian `binary.LittleEndian.Uint32(b[off:])`; `none` models the
Go runtime panic raised when fewer than 4 bytes are available. -/
def readU32 (b : List Nat) (off : Nat) : Option Nat :=
  if off + 4 ≤ b.length then
    some (byteAt b off + 256 * byteAt b (off + 1) + 65536 * byteAt b (off + 2) +
      16777216 * byteAt b (off + 3))
  else none

/-- The Go conversion `uint32(x)` of a (possibly negative) `int` value:
two's-complement reduction modulo `2 ^ 32`. -/
def u32ofInt (x : Int) : Nat :=
  (x % (2 ^ 32 : Int)).toNat

/-- End-of-central-directory signature `0x06054b50`. -/
def eocdSig : Nat := 0x06054b50

/-- Central-directory file-header signature `0x02014b50`. -/
def cdSig : Nat := 0x02014b50

/-- Local-file-header signature `0x04034b50`. -/
def lfhSig : Nat := 0x04034b50

/-- Backward scan of `findEOCD` from index `i` down to 0.  All its reads
are in bounds (the caller starts at `len - 22`). -/
def findEOCDFrom (b : List Nat) : Nat → Int
  | 0 => if readU32 b 0 = some eocdSig then 0 else -1
  | i + 1 => if readU32 b (i + 1) = some eocdSig then ((i + 1 : Nat) : Int) else findEOCDFrom b i

/-- Embedding of `findEOCD`: search backward from `len - 22` for the EOCD
signature; `-1` when absent (or when the buffer is shorter than 22 bytes, in
which case the loop body never runs). -/
def findEOCD (b : List Nat) : Int :=
  if b.length < 22 then -1
  else findEOCDFrom b (b.length - 22)

/-- The cipher metadata extracted for the GPU path, mirroring
`ZipCryptoInfo`. -/
structure ZipCryptoInfo where
  encryptedHeader : List Nat
  crc32 : Nat
  modTime : Nat
  flag : Nat
  checkByte : Nat
deriving Repr, DecidableEq

/-- Outcome of `extractZipCryptoInfo`: a parsed record, a returned error, or
an out-of-bounds buffer access (a Go runtime panic). -/
inductive ExtractOutcome where
  | ok (info : ZipCryptoInfo)
  | err
  | oob
deriving Repr, DecidableEq

/-- Embedding of `extractZipCryptoInfo`.  All offset arithmetic is the Go
`uint32` arithmetic (reduction modulo `2 ^ 32`); `oob` marks the places
where the Go code would index past the buffer and panic. -/
def extractZipCryptoInfo (b : List Nat) (localHeaderOffset flag crc32 modTime : Nat) :
    ExtractOutcome :=
  if b.length % 2 ^ 32 < (localHeaderOffset + 30) % 2 ^ 32 then .err
  else
    match readU32 b localHeaderOffset with
    | none => .oob
    | some sig =>
      if sig ≠ lfhSig then .err
      else
        match readU16 b (localHeaderOffset + 26), readU16 b (localHeaderOffset + 28) with
        | some fileNameLen, some extraLen =>
          let encryptedDataOffset := (localHeaderOffset + 30 + fileNameLen + extraLen) % 2 ^ 32
          if b.length % 2 ^ 32 < (encryptedDataOffset + 12) % 2 ^ 32 then .err
          else if encryptedDataOffset + 12 ≤ b.length then
            .ok { encryptedHeader := (List.range 12).map (fun k => byteAt b (encryptedDataOffset + k))
                  crc32 := crc32
                  modTime := modTime
                  flag := flag
                  checkByte := if flag / 8 % 2 = 1 then modTime / 256 % 256 else crc32 / 16777216 % 256 }
          else .oob
        | _, _ => .oob

/-- Outcome of `parseZipHeaders`: a parsed record, a returned error with its
message, or an out-of-bounds buffer access (a Go runtime panic). -/
inductive ParseOutcome where
  | ok (info : ZipCryptoInfo)
  | err (msg : String)
  | oob
deriving Repr, DecidableEq

/-- The central-directory walk of `parseZipHeaders`.  `fuel` counts the
remaining entries (`i < numEntries`), `limit` is the precomputed
`uint32(len(zipBytes)-46)` bound, `best`/`bestSize` carry the smallest
qualifying entry so far (`bestSize` starts at `^uint64(0)`). -/
def pzhLoop (b : List Nat) (limit : Nat) :
    Nat → Nat → Option ZipCryptoInfo → Nat → ParseOutcome
  | 0, _, best, _ =>
    match best with
    | none => .err "no suitable encrypted entries found"
    | some info => .ok info
  | fuel + 1, offset, best, bestSize =>
    if offset < limit then
      match readU32 b offset with
      | none => .oob
      | some sig =>
        if sig ≠ cdSig then .err "invalid central directory entry"
        else
          match readU16 b (offset + 8), readU16 b (offset + 10), readU16 b (offset + 12),
              readU32 b (offset + 16), readU32 b (offset + 24), readU16 b (offset + 28),
              readU16 b (offset + 30), readU16 b (offset + 32), readU32 b (offset + 42) with
          | some flag, some method, some modTime, some crc32, some uncompressedSize,
              some fileNameLen, some extraLen, some commentLen, some localHeaderOffset =>
            let nextOffset := (offset + 46 + fileNameLen + extraLen + commentLen) % 2 ^ 32
            if flag % 2 = 1 ∧ method = 0 then
              if localHeaderOffset < u32ofInt ((b.length : Int) - 30) then
                match extractZipCryptoInfo b localHeaderOffset flag crc32 modTime with
                | .oob => .oob
                | .err => pzhLoop b limit fuel nextOffset best bestSize
                | .ok info =>
                  if uncompressedSize < bestSize then pzhLoop b limit fuel nextOffset (some info) uncompressedSize
                  else pzhLoop b limit fuel nextOffset best bestSize
              else pzhLoop b limit fuel nextOffset best bestSize
            else pzhLoop b limit fuel nextOffset best bestSize
          | _, _, _, _, _, _, _, _, _ => .oob
    else
      match best with
      | none => .err "no suitable encrypted entries found"
      | some info => .ok info

/-- Embedding of `parseZipHeaders`: size guard, EOCD search, EOCD field
reads, central-directory offset guard, then the central-directory walk. -/
def parseZipHeaders (b : List Nat) : ParseOutcome :=
  if b.length < 22 then .err "zip file too small"
  else
    let e := findEOCD b
    if e = -1 then .err "end of central directory not found"
    else
      match readU32 b (e.toNat + 16), readU16 b (e.toNat + 10) with
      | some cdOffset, some numEntries =>
        if b.length % 2 ^ 32 ≤ cdOffset then .err "invalid central directory offset"
        else pzhLoop b (u32ofInt ((b.length : Int) - 46)) numEntries cdOffset none maxUint64
      | _, _ => .oob

/-- A 26-byte crafted buffer: a central-directory file header signature at
offset 0, an EOCD record whose signature sits at offset 4, entry count 1,
and central-directory offset 0. -/
def badZipBytes : List Nat :=
  [0x50, 0x4b, 0x01, 0x02, 0x50, 0x4b, 0x05, 0x06, 0, 0, 0, 0, 0, 0, 1, 0,
   0, 0, 0, 0, 0, 0, 0, 0, 0, 0]

/-! ### Combine lemmas -/

theorem combineGo_append (seen : Char → Bool) (out l1 l2 : List Char) :
    combineGo seen out (l1 ++ l2) =
      combineGo (combineGo seen out l1).1 (combineGo seen out l1).2 l2 := by
  induction l1 generalizing seen out with
  | nil => rfl
  | cons r rs ih =>
    by_cases h : seen r <;> simp [combineGo, h, ih]

theorem combineSets_eq_flatten (seen : Char → Bool) (out : List Char) (sets : List (List Char)) :
    combineSets seen out sets = combineGo seen out sets.flatten := by
  induction sets generalizing seen out with
  | nil => rfl
  | cons s sets ih => simp [combineSets, List.flatten_cons, combineGo_append, ih]

theorem combineGo_out_acc (seen : Char → Bool) (out l : List Char) :
    (combineGo seen out l).2 = out ++ (combineGo seen [] l).2 ∧
    (combineGo seen out l).1 = (combineGo seen [] l).1 := by
  induction l generalizing seen out with
  | nil => simp [combineGo]
  | cons r rs ih =>
    by_cases h : seen r
    · simpa [combineGo, h] using ih seen out
    · have h1 := ih (charsetUpdate seen r) (out ++ [r])
      have h2 := ih (charsetUpdate seen r) [r]
      simp [combineGo, h, h1.1, h1.2, h2.1, h2.2]

theorem dedupFrom_nil (seen : Char → Bool) : dedupFrom seen [] = [] := rfl

theorem dedupFrom_cons_seen (seen : Char → Bool) (r : Char) (rs : List Char)
    (h : seen r = true) : dedupFrom seen (r :: rs) = dedupFrom seen rs := by
  simp [dedupFrom, combineGo, h]

theorem dedupFrom_cons_new (seen : Char → Bool) (r : Char) (rs : List Char)
    (h : seen r = false) :
    dedupFrom seen (r :: rs) = r :: dedupFrom (charsetUpdate seen r) rs := by
  simp only [dedupFrom, combineGo, h, Bool.false_eq_true, if_false]
  simpa using (combineGo_out_acc (charsetUpdate seen r) [r] rs).1

theorem combineGo_seen_spec (seen : Char → Bool) (out l : List Char) (x : Char) :
    (combineGo seen out l).1 x = (seen x || decide (x ∈ l)) := by
  induction l generalizing seen out with
  | nil => simp [combineGo]
  | cons r rs ih =>
    by_cases h : seen r
    · rw [combineGo, if_pos h, ih]
      by_cases hx : x = r
      · subst hx; simp [h]
      · simp [hx]
    · rw [combineGo, if_neg h, ih]
      by_cases hx : x = r
      · subst hx; simp [charsetUpdate]
      · simp [charsetUpdate, hx]

theorem dedupFrom_mem (seen : Char → Bool) (l : List Char) (x : Char) :
    x ∈ dedupFrom seen l ↔ x ∈ l ∧ seen x = false := by
  induction l generalizing seen with
  | nil => simp [dedupFrom_nil]
  | cons r rs ih =>
    by_cases h : seen r
    · rw [dedupFrom_cons_seen seen r rs h]
      rw [ih]
      constructor
      · rintro ⟨hm, hs⟩
        exact ⟨List.mem_cons_of_mem r hm, hs⟩
      · rintro ⟨hm, hs⟩
        rcases List.mem_cons.mp hm with hx | hx
        · subst hx; rw [h] at hs; cases hs
        · exact ⟨hx, hs⟩
    · rw [dedupFrom_cons_new seen r rs (by simpa using h)]
      rw [List.mem_cons, ih]
      constructor
      · rintro (hx | ⟨hm, hs⟩)
        · subst hx; exact ⟨List.mem_cons_self x rs, by simpa using h⟩
        · have hxr : x ≠ r := by
            intro hxr; subst hxr; simp [charsetUpdate] at hs
          refine ⟨List.mem_cons_of_mem r hm, ?_⟩
          simpa [charsetUpdate, hxr] using hs
      · rintro ⟨hm, hs⟩
        by_cases hx : x = r
        · exact Or.inl hx
        · rcases List.mem_cons.mp hm with hx2 | hx2
          · exact absurd hx2 hx
          · exact Or.inr ⟨hx2, by simp [charsetUpdate, hx, hs]⟩

theorem firstIdx_cons_self (x : Char) (ys : List Char) : firstIdx x (x :: ys) = 0 := by
  simp [firstIdx]

theorem firstIdx_cons_ne (x y : Char) (ys : List Char) (h : y ≠ x) :
    firstIdx x (y :: ys) = firstIdx x ys + 1 := by
  simp [firstIdx, h]

theorem dedupFrom_pairwise (seen : Char → Bool) (l : List Char) :
    (dedupFrom seen l).Pairwise (fun a b => firstIdx a l < firstIdx b l) := by
  induction l generalizing seen with
  | nil => simp [dedupFrom_nil]
  | cons r rs ih =>
    by_cases h : seen r
    · rw [dedupFrom_cons_seen seen r rs h]
      refine ((ih seen).imp_of_mem ?_)
      intro a b ha hb hab
      have hane : r ≠ a := fun he => by
        have h2 := ((dedupFrom_mem seen rs a).mp ha).2
        rw [← he, h] at h2
        simp at h2
      have hbne : r ≠ b := fun he => by
        have h2 := ((dedupFrom_mem seen rs b).mp hb).2
        rw [← he, h] at h2
        simp at h2
      rw [firstIdx_cons_ne a r rs hane, firstIdx_cons_ne b r rs hbne]
      exact Nat.succ_lt_succ hab
    · rw [dedupFrom_cons_new seen r rs (by simpa using h)]
      refine List.Pairwise.cons ?_ ?_
      · intro b hb
        have hbne : r ≠ b := fun he => by
          have h2 := ((dedupFrom_mem (charsetUpdate seen r) rs b).mp hb).2
          rw [← he] at h2
          simp [charsetUpdate] at h2
        rw [firstIdx_cons_self, firstIdx_cons_ne b r rs hbne]
        exact Nat.succ_pos _
      · refine ((ih (charsetUpdate seen r)).imp_of_mem ?_)
        intro a b ha hb hab
        have hane : r ≠ a := fun he => by
          have h2 := ((dedupFrom_mem (charsetUpdate seen r) rs a).mp ha).2
          rw [← he] at h2
          simp [charsetUpdate] at h2
        have hbne : r ≠ b := fun he => by
          have h2 := ((dedupFrom_mem (charsetUpdate seen r) rs b).mp hb).2
          rw [← he] at h2
          simp [charsetUpdate] at h2
        rw [firstIdx_cons_ne a r rs hane, firstIdx_cons_ne b r rs hbne]
        exact Nat.succ_lt_succ hab

theorem dedupFrom_all_seen (seen : Char → Bool) (l : List Char)
    (h : ∀ x ∈ l, seen x = true) : dedupFrom seen l = [] := by
  induction l with
  | nil => rfl
  | cons r rs ih =>
    rw [dedupFrom_cons_seen seen r rs (h r (List.mem_cons_self r rs))]
    exact ih (fun x hx => h x (List.mem_cons_of_mem r hx))

theorem Combine_eq_dedupFrom (sets : List (List Char)) :
    Combine sets = dedupFrom (fun _ => false) sets.flatten := by
  simp [Combine, combineSets_eq_flatten, dedupFrom]

theorem dedupFrom_append (seen : Char → Bool) (l1 l2 : List Char) :
    dedupFrom seen (l1 ++ l2) =
      dedupFrom seen l1 ++ dedupFrom (combineGo seen [] l1).1 l2 := by
  have h := combineGo_append seen [] l1 l2
  have h2 := combineGo_out_acc (combineGo seen [] l1).1 (combineGo seen [] l1).2 l2
  simp [dedupFrom, h, h2.1]

/-- C9: Combine is idempotent and order-preserving with duplicates removed.
For every symbol class S, Combine applied to S twice equals Combine of S
alone; and for every list of classes, the output has no duplicates, contains
exactly the symbols of the concatenated input, and lists them in order of
first occurrence across the concatenated input. -/
theorem C9_combine_dedup (S : List Char) (sets : List (List Char)) :
    Combine [S, S] = Combine [S] ∧
    (Combine sets).Nodup ∧
    (∀ x, x ∈ Combine sets ↔ x ∈ sets.flatten) ∧
    (Combine sets).Pairwise
      (fun a b => firstIdx a sets.flatten < firstIdx b sets.flatten) := by
  have hpair := dedupFrom_pairwise (fun _ => false) sets.flatten
  refine ⟨?_, ?_, ?_, ?_⟩
  · rw [Combine_eq_dedupFrom, Combine_eq_dedupFrom]
    have hfl : ([S, S] : List (List Char)).flatten = S ++ S := by simp
    have hfl1 : ([S] : List (List Char)).flatten = S := by simp
    rw [hfl, hfl1, dedupFrom_append]
    have hall : dedupFrom (combineGo (fun _ => false) [] S).1 S = [] := by
      refine dedupFrom_all_seen _ S ?_
      intro x hx
      rw [combineGo_seen_spec]
      simp [hx]
    rw [hall, List.append_nil]
  · rw [Combine_eq_dedupFrom]
    exact hpair.imp (fun hab heq => by rw [heq] at hab; exact Nat.lt_irrefl _ hab)
  · intro x
    rw [Combine_eq_dedupFrom, dedupFrom_mem]
    simp
  · rw [Combine_eq_dedupFrom]
    exact hpair

/-! ## Theorems: C1 and C8 -/

theorem publishResult_published_noop (s : RunnerPubState) (res : Result)
    (h : s.onceDone = true) : publishResult s res = s := by
  simp [publishResult, h]

theorem runPublishes_fold_published (s : RunnerPubState) (l : List Result)
    (h : s.onceDone = true) : l.foldl publishResult s = s := by
  induction l with
  | nil => rfl
  | cons a l ih => simpa [publishResult_published_noop s a h] using ih

/-- C1: At most one Result is ever delivered per run.  For every sequence of
calls to `publishResult` (first the call carrying `res`, then any later
calls `rest`), the first call stores its result and sends it on the result
channel, every later call leaves the state unchanged, and the channel buffer
never holds more than one value. -/
theorem C1_publish_at_most_once (res : Result) (rest : List Result) :
    runPublishes (res :: rest) =
      { onceDone := true, result := res, resultCh := [res] } ∧
    (∀ s r, s.onceDone = true → publishResult s r = s) ∧
    (∀ calls : List Result, (runPublishes calls).resultCh.length ≤ 1) := by
  refine ⟨?_, fun s r h => publishResult_published_noop s r h, ?_⟩
  · have h1 : publishResult initPubState res =
        { onceDone := true, result := res, resultCh := [res] } := by
      simp [publishResult, initPubState, resultChCap]
    simpa [runPublishes, h1] using
      runPublishes_fold_published { onceDone := true, result := res, resultCh := [res] } rest rfl
  · intro calls
    cases calls with
    | nil => simp [runPublishes, initPubState]
    | cons a l =>
      have h1 : publishResult initPubState a =
          { onceDone := true, result := a, resultCh := [a] } := by
        simp [publishResult, initPubState, resultChCap]
      simp [runPublishes, h1,
        runPublishes_fold_published { onceDone := true, result := a, resultCh := [a] } l rfl]

/-- Witness for C1 at a concrete two-call publication sequence. -/
theorem C1_publish_witness :
    runPublishes [{ found := true, password := "pw" }, { found := false, password := "" }] =
      { onceDone := true, result := { found := true, password := "pw" },
        resultCh := [{ found := true, password := "pw" }] } ∧
    (∀ s r, s.onceDone = true → publishResult s r = s) ∧
    (∀ calls : List Result, (runPublishes calls).resultCh.length ≤ 1) :=
  C1_publish_at_most_once { found := true, password := "pw" } [{ found := false, password := "" }]

/-- C8 counterexample: the claim says a non-positive `BatchSize` is
normalized to 1, but `NewRunner` normalizes it to 1024.  At the concrete
configuration below with `BatchSize = 0`, the stored batch size is 1024,
not 1. -/
theorem C8_batchSize_not_one :
    (newRunnerCfg
      { zipBytes := [], alphabet := [], minLen := 1, maxLen := 1, workers := 1,
        batchSize := 0, reportEvery := 1, foundCallback := none,
        backend := "cpu" }).batchSize = 1024 ∧ (1024 : Int) ≠ 1 := by
  constructor
  · rfl
  · decide

/-- C8 (amended): `NewRunner` normalizes a non-positive `Workers` to 1, a
non-positive `BatchSize` to 1024, and a non-positive `ReportEvery` to the
2-second default; positive values and all other configuration fields are
left unchanged. -/
theorem C8_newRunner_normalization (cfg : Config) :
    (newRunnerCfg cfg).workers = (if cfg.workers ≤ 0 then 1 else cfg.workers) ∧
    (newRunnerCfg cfg).batchSize = (if cfg.batchSize ≤ 0 then 1024 else cfg.batchSize) ∧
    (newRunnerCfg cfg).reportEvery =
      (if cfg.reportEvery ≤ 0 then defaultReportEvery else cfg.reportEvery) ∧
    (newRunnerCfg cfg).zipBytes = cfg.zipBytes ∧
    (newRunnerCfg cfg).alphabet = cfg.alphabet ∧
    (newRunnerCfg cfg).minLen = cfg.minLen ∧
    (newRunnerCfg cfg).maxLen = cfg.maxLen ∧
    (newRunnerCfg cfg).foundCallback = cfg.foundCallback ∧
    (newRunnerCfg cfg).backend = cfg.backend := by
  unfold newRunnerCfg NewRunner
  by_cases hw : cfg.workers ≤ 0 <;> by_cases hb : cfg.batchSize ≤ 0 <;>
    by_cases hr : cfg.reportEvery ≤ 0 <;>
    simp [hw, hb, hr]

/-! ## Theorems: C3 (candidate generation) -/

theorem buildCandidate_length (alphabet : List Char) (n : Nat) (rng : Rng) :
    (buildCandidate alphabet n rng).1.length = n := by
  induction n generalizing rng with
  | zero => rfl
  | succ n ih => simp [buildCandidate, ih]

theorem buildCandidate_mem (alphabet : List Char) (hA : alphabet ≠ []) (n : Nat) (rng : Rng) :
    ∀ ch ∈ (buildCandidate alphabet n rng).1, ch ∈ alphabet := by
  induction n generalizing rng with
  | zero => intro ch h; simp [buildCandidate] at h
  | succ n ih =>
    intro ch h
    simp only [buildCandidate, Rng.intn, List.mem_cons] at h
    rcases h with h1 | h1
    · subst h1
      have hlen : 0 < alphabet.length := List.length_pos.mpr hA
      have hidx : rng.stream rng.pos % alphabet.length < alphabet.length :=
        Nat.mod_lt _ hlen
      rw [List.getD_eq_getElem _ _ hidx]
      exact List.getElem_mem hidx
    · exact ih _ ch h1

theorem genCandidate_length (alphabet : List Char) (minLen maxLen : Nat) (rng : Rng)
    (h : minLen ≤ maxLen) :
    minLen ≤ (genCandidate alphabet minLen maxLen rng).1.length ∧
    (genCandidate alphabet minLen maxLen rng).1.length ≤ maxLen := by
  unfold genCandidate
  by_cases hlt : minLen < maxLen
  · simp only [hlt, if_true, Rng.intn]
    rw [buildCandidate_length]
    have hmod : rng.stream rng.pos % (maxLen - minLen + 1) ≤ maxLen - minLen :=
      Nat.lt_succ_iff.mp (Nat.mod_lt _ (Nat.succ_pos _))
    omega
  · simp only [hlt, if_false]
    rw [buildCandidate_length]
    omega

theorem genCandidate_mem (alphabet : List Char) (hA : alphabet ≠ []) (minLen maxLen : Nat)
    (rng : Rng) : ∀ ch ∈ (genCandidate alphabet minLen maxLen rng).1, ch ∈ alphabet := by
  unfold genCandidate
  exact buildCandidate_mem alphabet hA _ _

theorem genBatchGo_spec (alphabet : List Char) (minLen maxLen : Nat)
    (hA : alphabet ≠ []) (hml : minLen ≤ maxLen) (count : Nat) (rng : Rng) :
    (genBatchGo alphabet minLen maxLen count rng).length = count ∧
    ∀ c ∈ genBatchGo alphabet minLen maxLen count rng,
      (minLen ≤ c.length ∧ c.length ≤ maxLen) ∧ ∀ ch ∈ c, ch ∈ alphabet := by
  induction count generalizing rng with
  | zero => exact ⟨rfl, by simp [genBatchGo]⟩
  | succ n ih =>
    refine ⟨by simp [genBatchGo, (ih _).1], ?_⟩
    intro c hc
    simp only [genBatchGo, List.mem_cons] at hc
    rcases hc with h1 | h1
    · subst h1
      exact ⟨genCandidate_length alphabet minLen maxLen rng hml,
        genCandidate_mem alphabet hA minLen maxLen rng⟩
    · exact (ih _).2 c h1

/-- C3: for a non-empty alphabet, `0 ≤ minLen ≤ maxLen` and a positive batch
size, `generateBatch` returns exactly `batchSize` candidates, each of length
in `[minLen, maxLen]` and drawn only from the alphabet, for every state of
the random stream. -/
theorem C3_generateBatch_spec (alphabet : List Char) (minLen maxLen batchSize : Nat)
    (rng : Rng) (hA : alphabet ≠ []) (hml : minLen ≤ maxLen) (hbs : 0 < batchSize) :
    (generateBatch alphabet minLen maxLen batchSize rng).length = batchSize ∧
    ∀ c ∈ generateBatch alphabet minLen maxLen batchSize rng,
      minLen ≤ c.length ∧ c.length ≤ maxLen ∧ ∀ ch ∈ c, ch ∈ alphabet := by
  have hA0 : ¬ alphabet.length = 0 := by
    simpa [List.length_eq_zero] using hA
  have hbs0 : ¬ batchSize ≤ 0 := by omega
  unfold generateBatch
  simp only [hbs0, if_false, hA0]
  have h := genBatchGo_spec alphabet minLen maxLen hA hml batchSize rng
  refine ⟨h.1, ?_⟩
  intro c hc
  obtain ⟨⟨h1, h2⟩, h3⟩ := h.2 c hc
  exact ⟨h1, h2, h3⟩

/-- Witness for C3 at a concrete alphabet, length range, batch size and
random stream. -/
theorem C3_generateBatch_witness :
    (['a', 'b'] : List Char) ≠ [] ∧ (1 : Nat) ≤ 2 ∧ (0 : Nat) < 2 ∧
    ((generateBatch ['a', 'b'] 1 2 2 ⟨fun n => n, 0⟩).length = 2 ∧
      ∀ c ∈ generateBatch ['a', 'b'] 1 2 2 ⟨fun n => n, 0⟩,
        1 ≤ c.length ∧ c.length ≤ 2 ∧ ∀ ch ∈ c, ch ∈ (['a', 'b'] : List Char)) :=
  ⟨by decide, by decide, by decide,
    C3_generateBatch_spec ['a', 'b'] 1 2 2 ⟨fun n => n, 0⟩ (by decide) (by decide) (by decide)⟩

/-! ## Theorems: C4 (CPU batch verification) -/

/-- C4: the CPU batch scan stops at the first matching candidate.  The
attempts consumed never exceed the batch length; a non-negative match index
is the lowest index whose candidate verifies, lies inside the batch, no
earlier candidate verifies, and the attempts equal the index plus one; a
negative result is exactly `-1` with attempts equal to the batch length and
no candidate verifying. -/
theorem C4_cpuBatchVerify_spec (tryf : List Char → Bool) (batch : List (List Char)) :
    (cpuBatchVerify tryf batch).2 ≤ batch.length ∧
    (0 ≤ (cpuBatchVerify tryf batch).1 →
      ((cpuBatchVerify tryf batch).1).toNat < batch.length ∧
      tryf (batch.getD ((cpuBatchVerify tryf batch).1).toNat []) = true ∧
      (∀ j < ((cpuBatchVerify tryf batch).1).toNat, tryf (batch.getD j []) = false) ∧
      (cpuBatchVerify tryf batch).2 = ((cpuBatchVerify tryf batch).1).toNat + 1) ∧
    ((cpuBatchVerify tryf batch).1 < 0 →
      (cpuBatchVerify tryf batch).1 = -1 ∧
      (cpuBatchVerify tryf batch).2 = batch.length ∧
      ∀ j < batch.length, tryf (batch.getD j []) = false) := by
  induction batch with
  | nil =>
    refine ⟨Nat.le_refl _, ?_, ?_⟩
    · intro h
      have he : (cpuBatchVerify tryf []).1 = -1 := rfl
      omega
    · intro _; exact ⟨rfl, rfl, fun j hj => absurd hj (Nat.not_lt_zero j)⟩
  | cons pw rest ih =>
    by_cases htry : tryf pw = true
    · simp only [cpuBatchVerify, htry, if_true]
      refine ⟨by simp, ?_, ?_⟩
      · intro _
        refine ⟨by simp, ?_, ?_, rfl⟩
        · simpa using htry
        · intro j hj; omega
      · intro h; exact absurd h (by decide)
    · have htry' : tryf pw = false := by simpa using htry
      obtain ⟨ihLe, ihPos, ihNeg⟩ := ih
      simp only [cpuBatchVerify, htry', Bool.false_eq_true, if_false]
      by_cases hp : 0 ≤ (cpuBatchVerify tryf rest).1
      · obtain ⟨hlt, hhit, hearlier, hatt⟩ := ihPos hp
        simp only [hp, if_true]
        have htn : ((cpuBatchVerify tryf rest).1 + 1).toNat =
            ((cpuBatchVerify tryf rest).1).toNat + 1 := by omega
        refine ⟨by simp only [List.length_cons]; omega, ?_, ?_⟩
        · intro _
          rw [htn]
          refine ⟨by simpa using hlt, by simpa using hhit, ?_, by omega⟩
          intro j hj
          match j with
          | 0 => simpa using htry'
          | k + 1 =>
            have hk : k < ((cpuBatchVerify tryf rest).1).toNat := by omega
            simpa using hearlier k hk
        · intro h; exact absurd h (by omega)
      · have hneg : (cpuBatchVerify tryf rest).1 < 0 := by omega
        obtain ⟨hm1, hatt, hnone⟩ := ihNeg hneg
        simp only [hp, if_false]
        refine ⟨by simp [hatt], ?_, ?_⟩
        · intro h; exact h.elim
        · intro _
          refine ⟨hm1, by simp [hatt], ?_⟩
          intro j hj
          match j with
          | 0 => simpa using htry'
          | k + 1 =>
            have hk : k < rest.length := by simpa using hj
            simpa using hnone k hk

/-- Witness for C4 at a concrete predicate and batch (match at index 1). -/
theorem C4_cpuBatchVerify_witness :
    (cpuBatchVerify (fun c => c = ['b']) [['a'], ['b'], ['c']]).2 ≤ 3 ∧
    (0 ≤ (cpuBatchVerify (fun c => c = ['b']) [['a'], ['b'], ['c']]).1 →
      ((cpuBatchVerify (fun c => c = ['b']) [['a'], ['b'], ['c']]).1).toNat < 3 ∧
      (fun c => decide (c = (['b'] : List Char)))
        ([['a'], ['b'], ['c']].getD
          ((cpuBatchVerify (fun c => c = ['b']) [['a'], ['b'], ['c']]).1).toNat []) = true ∧
      (∀ j < ((cpuBatchVerify (fun c => c = ['b']) [['a'], ['b'], ['c']]).1).toNat,
        (fun c => decide (c = (['b'] : List Char))) ([['a'], ['b'], ['c']].getD j []) = false) ∧
      (cpuBatchVerify (fun c => c = ['b']) [['a'], ['b'], ['c']]).2 =
        ((cpuBatchVerify (fun c => c = ['b']) [['a'], ['b'], ['c']]).1).toNat + 1) ∧
    ((cpuBatchVerify (fun c => c = ['b']) [['a'], ['b'], ['c']]).1 < 0 →
      (cpuBatchVerify (fun c => c = ['b']) [['a'], ['b'], ['c']]).1 = -1 ∧
      (cpuBatchVerify (fun c => c = ['b']) [['a'], ['b'], ['c']]).2 = 3 ∧
      ∀ j < 3, (fun c => decide (c = (['b'] : List Char)))
        ([['a'], ['b'], ['c']].getD j []) = false) := by
  simpa using C4_cpuBatchVerify_spec (fun c => c = ['b']) [['a'], ['b'], ['c']]

/-! ## Theorems: C6 (single-attempt error folding) -/

/-- C6: both single-attempt routines fold every failure into a boolean
"not a match".  `cpuWorker.try` returns `true` exactly when the fresh
reader construction, the index range check, `Open`, the full drain, and
`Close` all succeed; `ZipWorker.Try` returns `true` exactly when `Open`,
the drain, and `Close` all succeed.  Both are total boolean functions: no
error is ever propagated. -/
theorem C6_try_folds_errors (targetIndex : Int) (o : AttemptOutcome) :
    (cpuTry targetIndex o = true ↔
      o.newReaderOk = true ∧ (0 ≤ targetIndex ∧ targetIndex < (o.fileCount : Int)) ∧
      o.openOk = true ∧ o.copyOk = true ∧ o.closeOk = true) ∧
    (zipWorkerTry o = true ↔ o.openOk = true ∧ o.copyOk = true ∧ o.closeOk = true) := by
  obtain ⟨nr, fc, op, cp, cl⟩ := o
  simp only [cpuTry, zipWorkerTry]
  by_cases hidx : targetIndex < 0 ∨ (fc : Int) ≤ targetIndex
  · constructor
    · cases nr <;> cases op <;> cases cp <;> cases cl <;> simp [hidx] <;> omega
    · cases op <;> cases cp <;> cases cl <;> simp
  · constructor
    · cases nr <;> cases op <;> cases cp <;> cases cl <;> simp [hidx] <;> omega
    · cases op <;> cases cp <;> cases cl <;> simp

/-! ## Theorems: C5 and C10 (GPU batch verification) -/

theorem scanResults_range (f : Nat → Nat) (count : Nat) :
    ∀ start : Nat, scanResults f start count = -1 ∨
      ∃ i : Nat, scanResults f start count = (i : Int) ∧ start ≤ i ∧ i < start + count := by
  induction count with
  | zero => intro start; exact Or.inl rfl
  | succ n ih =>
    intro start
    by_cases h : f start ≠ 0
    · refine Or.inr ⟨start, ?_, Nat.le_refl _, by omega⟩
      simp [scanResults, h]
    · have h2 := ih (start + 1)
      rcases h2 with h2 | ⟨i, hi, hle, hlt⟩
      · exact Or.inl (by simp [scanResults, h, h2])
      · exact Or.inr ⟨i, by simp [scanResults, h, hi], by omega, by omega⟩

theorem scanResults_all_zero (count : Nat) :
    ∀ start : Nat, scanResults (fun _ => 0) start count = -1 := by
  induction count with
  | zero => intro start; rfl
  | succ n ih => intro start; simp [scanResults, ih]

theorem vkBatchVerify_eq (d : DeviceState) (cap : Nat) (batch : List (List Char))
    (hne : batch.length ≠ 0) :
    vkBatchVerify d cap batch =
      (if d.uploadOk = false then (-1, min batch.length cap)
       else if d.dispatchOk = false then (-1, min batch.length cap)
       else (downloadResults d (min batch.length cap), min batch.length cap)) := by
  have hlen : (if cap < batch.length then batch.take cap else batch).length =
      min batch.length cap := by
    by_cases hcap : cap < batch.length
    · simp only [hcap, if_true, List.length_take]
      omega
    · simp only [hcap, if_false]
      omega
  simp only [vkBatchVerify, hne, if_false, hlen]

theorem downloadResults_bound (d : DeviceState) (n : Nat)
    (h : 0 ≤ downloadResults d n) : downloadResults d n < (n : Int) := by
  unfold downloadResults at h ⊢
  by_cases hm : d.mapResultsOk = false
  · rw [if_pos hm] at h
    exact absurd h (by decide)
  · rw [if_neg hm] at h ⊢
    rcases scanResults_range d.results n 0 with hsc | ⟨i, hi, -, hlt⟩
    · rw [hsc] at h; exact absurd h (by decide)
    · rw [hi]; exact_mod_cast by omega

/-- C5: a batch longer than the worker's device capacity
(`DefaultGPUBatchSize = 4096`) is truncated to capacity:
`vulkanWorker.BatchVerify` returns attempts equal to the capacity, not the
original batch length, and any non-negative match index it returns lies
within the truncated prefix. -/
theorem C5_vkBatchVerify_truncation (d : DeviceState) (batch : List (List Char))
    (h : vulkanBatchCapacity < batch.length) :
    (vkBatchVerify d vulkanBatchCapacity batch).2 = vulkanBatchCapacity ∧
    (vkBatchVerify d vulkanBatchCapacity batch).2 ≠ batch.length ∧
    (0 ≤ (vkBatchVerify d vulkanBatchCapacity batch).1 →
      (vkBatchVerify d vulkanBatchCapacity batch).1 < (vulkanBatchCapacity : Int)) := by
  have hmin : min batch.length vulkanBatchCapacity = vulkanBatchCapacity := by omega
  rw [vkBatchVerify_eq d vulkanBatchCapacity batch (by omega), hmin]
  by_cases hu : d.uploadOk = false
  · rw [if_pos hu]
    exact ⟨rfl, by omega, fun hge => absurd hge (by decide)⟩
  · rw [if_neg hu]
    by_cases hdp : d.dispatchOk = false
    · rw [if_pos hdp]
      exact ⟨rfl, by omega, fun hge => absurd hge (by decide)⟩
    · rw [if_neg hdp]
      exact ⟨rfl, by omega, downloadResults_bound d vulkanBatchCapacity⟩

/-- Witness for C5 at a concrete device state and a batch of 4097
candidates. -/
theorem C5_vkBatchVerify_witness :
    vulkanBatchCapacity < (List.replicate 4097 (['a'] : List Char)).length ∧
    ((vkBatchVerify ⟨true, true, true, fun _ => 0⟩ vulkanBatchCapacity
        (List.replicate 4097 ['a'])).2 = vulkanBatchCapacity ∧
      (vkBatchVerify ⟨true, true, true, fun _ => 0⟩ vulkanBatchCapacity
        (List.replicate 4097 ['a'])).2 ≠ (List.replicate 4097 (['a'] : List Char)).length ∧
      (0 ≤ (vkBatchVerify ⟨true, true, true, fun _ => 0⟩ vulkanBatchCapacity
          (List.replicate 4097 ['a'])).1 →
        (vkBatchVerify ⟨true, true, true, fun _ => 0⟩ vulkanBatchCapacity
          (List.replicate 4097 ['a'])).1 < (vulkanBatchCapacity : Int))) :=
  ⟨by rw [List.length_replicate]; decide,
    C5_vkBatchVerify_truncation ⟨true, true, true, fun _ => 0⟩ (List.replicate 4097 ['a'])
      (by rw [List.length_replicate]; decide)⟩

/-- C10: when the device upload or the compute dispatch fails,
`vulkanWorker.BatchVerify` returns `matchIdx = -1` with attempts equal to
the (possibly truncated) batch length — exactly the value returned by a
fully successful dispatch over a batch with no match, so a whole-batch
device failure is indistinguishable from a batch containing no match. -/
theorem C10_vkBatchVerify_device_failure (d : DeviceState) (batch : List (List Char))
    (h : d.uploadOk = false ∨ d.dispatchOk = false) :
    vkBatchVerify d vulkanBatchCapacity batch =
      (-1, min batch.length vulkanBatchCapacity) ∧
    vkBatchVerify ⟨true, true, true, fun _ => 0⟩ vulkanBatchCapacity batch =
      (-1, min batch.length vulkanBatchCapacity) := by
  by_cases hne : batch.length = 0
  · rw [Nat.min_eq_left (by omega), hne]
    constructor <;> simp [vkBatchVerify, hne]
  · constructor
    · rw [vkBatchVerify_eq d vulkanBatchCapacity batch hne]
      rcases h with h | h
      · rw [if_pos h]
      · by_cases hu : d.uploadOk = false
        · rw [if_pos hu]
        · rw [if_neg hu, if_pos h]
    · rw [vkBatchVerify_eq ⟨true, true, true, fun _ => 0⟩ vulkanBatchCapacity batch hne]
      have hdl : downloadResults ⟨true, true, true, fun _ => 0⟩
          (min batch.length vulkanBatchCapacity) = -1 := by
        simp [downloadResults, scanResults_all_zero]
      simp [hdl]

/-- Witness for C10 at a concrete failing device state and batch. -/
theorem C10_vkBatchVerify_witness :
    ((false : Bool) = false ∨ (true : Bool) = false) ∧
    (vkBatchVerify ⟨false, true, true, fun _ => 0⟩ vulkanBatchCapacity [['a']] =
      (-1, min ([[('a' : Char)]] : List (List Char)).length vulkanBatchCapacity) ∧
    vkBatchVerify ⟨true, true, true, fun _ => 0⟩ vulkanBatchCapacity [['a']] =
      (-1, min ([[('a' : Char)]] : List (List Char)).length vulkanBatchCapacity)) :=
  ⟨Or.inl rfl,
    C10_vkBatchVerify_device_failure ⟨false, true, true, fun _ => 0⟩ [['a']] (Or.inl rfl)⟩

/-! ## Theorems: C2 (target-entry selection) -/

theorem fseGo_spec (l : List ZipEntry) :
    ∀ (i : Nat) (t : Int) (ts : Nat),
      (fseGo l i t ts).2 ≤ ts ∧
      ((fseGo l i t ts).2 = ts → (fseGo l i t ts).1 = t) ∧
      (∀ k, k < l.length → qualifies (l.getD k ⟨true, false, 0⟩) = true →
        (fseGo l i t ts).2 ≤ (l.getD k ⟨true, false, 0⟩).uncompressedSize64) ∧
      ((fseGo l i t ts).2 < ts →
        ∃ j, j < l.length ∧ qualifies (l.getD j ⟨true, false, 0⟩) = true ∧
          (l.getD j ⟨true, false, 0⟩).uncompressedSize64 = (fseGo l i t ts).2 ∧
          (fseGo l i t ts).1 = ((i + j : Nat) : Int) ∧
          ∀ k, k < j → qualifies (l.getD k ⟨true, false, 0⟩) = true →
            (fseGo l i t ts).2 < (l.getD k ⟨true, false, 0⟩).uncompressedSize64) := by
  induction l with
  | nil =>
    intro i t ts
    refine ⟨Nat.le_refl _, fun _ => rfl, ?_, ?_⟩
    · intro k hk; exact absurd hk (Nat.not_lt_zero k)
    · intro hlt; exact absurd hlt (Nat.lt_irrefl _)
  | cons e rest ih =>
    intro i t ts
    by_cases hq : qualifies e = true
    · have hdq : e.isDir = false ∧ e.isEncrypted = true := by
        simpa [qualifies] using hq
      by_cases hsz : e.uncompressedSize64 < ts
      · -- select branch: the entry becomes the new running minimum
        have heq : fseGo (e :: rest) i t ts = fseGo rest (i + 1) (i : Int) e.uncompressedSize64 := by
          simp [fseGo, hdq.1, hdq.2, hsz]
        rw [heq]
        obtain ⟨ih1, ih2, ih3, ih4⟩ := ih (i + 1) (i : Int) e.uncompressedSize64
        refine ⟨Nat.le_trans ih1 (Nat.le_of_lt hsz), ?_, ?_, ?_⟩
        · intro hts; exact absurd hts (by omega)
        · intro k hk hqk
          match k with
          | 0 => rw [List.getD_cons_zero]; exact ih1
          | k + 1 =>
            rw [List.getD_cons_succ] at hqk ⊢
            exact ih3 k (by simpa using hk) hqk
        · intro _
          rcases Nat.eq_or_lt_of_le ih1 with heqsz | hltsz
          · have hidx := ih2 heqsz
            refine ⟨0, by simp, ?_, ?_, ?_, ?_⟩
            · rw [List.getD_cons_zero]; exact hq
            · rw [List.getD_cons_zero]; exact heqsz.symm
            · rw [hidx]; exact congrArg Int.ofNat (by omega)
            · intro k hk; exact absurd hk (Nat.not_lt_zero k)
          · obtain ⟨j, hj, hqj, hszj, hidx, hearly⟩ := ih4 hltsz
            refine ⟨j + 1, by simpa using hj, ?_, ?_, ?_, ?_⟩
            · rw [List.getD_cons_succ]; exact hqj
            · rw [List.getD_cons_succ]; exact hszj
            · rw [hidx]; exact congrArg Int.ofNat (by omega)
            · intro k hk hqk
              match k with
              | 0 => rw [List.getD_cons_zero]; exact hltsz
              | k + 1 =>
                rw [List.getD_cons_succ] at hqk ⊢
                exact hearly k (by omega) hqk
      · -- qualifying but not strictly smaller than the running minimum
        have heq : fseGo (e :: rest) i t ts = fseGo rest (i + 1) t ts := by
          simp [fseGo, hdq.1, hdq.2, hsz]
        rw [heq]
        obtain ⟨ih1, ih2, ih3, ih4⟩ := ih (i + 1) t ts
        refine ⟨ih1, ih2, ?_, ?_⟩
        · intro k hk hqk
          match k with
          | 0 =>
            rw [List.getD_cons_zero]
            exact Nat.le_trans ih1 (by omega)
          | k + 1 =>
            rw [List.getD_cons_succ] at hqk ⊢
            exact ih3 k (by simpa using hk) hqk
        · intro hlt
          obtain ⟨j, hj, hqj, hszj, hidx, hearly⟩ := ih4 hlt
          refine ⟨j + 1, by simpa using hj, ?_, ?_, ?_, ?_⟩
          · rw [List.getD_cons_succ]; exact hqj
          · rw [List.getD_cons_succ]; exact hszj
          · rw [hidx]; exact congrArg Int.ofNat (by omega)
          · intro k hk hqk
            match k with
            | 0 =>
              rw [List.getD_cons_zero]
              omega
            | k + 1 =>
              rw [List.getD_cons_succ] at hqk ⊢
              exact hearly k (by omega) hqk
    · -- non-qualifying entry (a directory or unencrypted): skipped
      have hq' : qualifies e = false := by simpa using hq
      have heq : fseGo (e :: rest) i t ts = fseGo rest (i + 1) t ts := by
        cases hd : e.isDir
        · cases he : e.isEncrypted
          · simp [fseGo, hd, he]
          · exfalso
            have hqt : qualifies e = true := by simp [qualifies, hd, he]
            rw [hq'] at hqt
            exact absurd hqt (by decide)
        · simp [fseGo, hd]
      rw [heq]
      obtain ⟨ih1, ih2, ih3, ih4⟩ := ih (i + 1) t ts
      refine ⟨ih1, ih2, ?_, ?_⟩
      · intro k hk hqk
        match k with
        | 0 =>
          rw [List.getD_cons_zero] at hqk
          rw [hq'] at hqk; exact absurd hqk (by decide)
        | k + 1 =>
          rw [List.getD_cons_succ] at hqk ⊢
          exact ih3 k (by simpa using hk) hqk
      · intro hlt
        obtain ⟨j, hj, hqj, hszj, hidx, hearly⟩ := ih4 hlt
        refine ⟨j + 1, by simpa using hj, ?_, ?_, ?_, ?_⟩
        · rw [List.getD_cons_succ]; exact hqj
        · rw [List.getD_cons_succ]; exact hszj
        · rw [hidx]; exact congrArg Int.ofNat (by omega)
        · intro k hk hqk
          match k with
          | 0 =>
            rw [List.getD_cons_zero] at hqk
            rw [hq'] at hqk; exact absurd hqk (by decide)
          | k + 1 =>
            rw [List.getD_cons_succ] at hqk ⊢
            exact hearly k (by omega) hqk

/-- C2 counterexample: the claim promises that every archive with at least
one non-directory encrypted entry yields a selected target, but an
encrypted regular entry whose `UncompressedSize64` equals `^uint64(0)` is
never selected — the strict comparison against the max-valued sentinel
fails — so construction errors out on this qualifying single-entry
archive. -/
theorem C2_maxsize_counterexample :
    qualifies { isDir := false, isEncrypted := true, uncompressedSize64 := maxUint64 } = true ∧
    findSmallestEncryptedIndex
        [{ isDir := false, isEncrypted := true, uncompressedSize64 := maxUint64 }] =
      .error "zip has no encrypted files to crack" := by
  constructor
  · decide
  · rfl

/-- C2 (amended): `findSmallestEncryptedIndex` (and the identical scan in
`NewZipChecker`) errors on an archive with no entries; errors when no
non-directory encrypted entry has uncompressed size strictly below
`^uint64(0)`; and otherwise selects, among non-directory encrypted entries,
the one with the smallest uncompressed size, the first-encountered entry
winning ties — entries of size exactly `^uint64(0)` are never selected. -/
theorem C2_target_selection (entries : List ZipEntry) :
    (entries = [] → findSmallestEncryptedIndex entries = .error "zip has no entries") ∧
    (entries ≠ [] →
      (∀ k, k < entries.length → ¬(qualifies (entries.getD k ⟨true, false, 0⟩) = true ∧
          (entries.getD k ⟨true, false, 0⟩).uncompressedSize64 < maxUint64)) →
      findSmallestEncryptedIndex entries = .error "zip has no encrypted files to crack") ∧
    ((∃ k, k < entries.length ∧ qualifies (entries.getD k ⟨true, false, 0⟩) = true ∧
        (entries.getD k ⟨true, false, 0⟩).uncompressedSize64 < maxUint64) →
      ∃ j : Nat, findSmallestEncryptedIndex entries = .ok (j : Int) ∧ j < entries.length ∧
        qualifies (entries.getD j ⟨true, false, 0⟩) = true ∧
        (∀ k, k < entries.length → qualifies (entries.getD k ⟨true, false, 0⟩) = true →
          (entries.getD j ⟨true, false, 0⟩).uncompressedSize64 ≤
            (entries.getD k ⟨true, false, 0⟩).uncompressedSize64) ∧
        (∀ k, k < j → qualifies (entries.getD k ⟨true, false, 0⟩) = true →
          (entries.getD j ⟨true, false, 0⟩).uncompressedSize64 <
            (entries.getD k ⟨true, false, 0⟩).uncompressedSize64)) := by
  obtain ⟨s1, s2, s3, s4⟩ := fseGo_spec entries 0 (-1) maxUint64
  refine ⟨?_, ?_, ?_⟩
  · intro h; subst h; rfl
  · intro hne hnoq
    have hlen : ¬ entries.length = 0 := by
      simpa [List.length_eq_zero] using hne
    have heqts : (fseGo entries 0 (-1) maxUint64).2 = maxUint64 := by
      by_contra hne2
      have hlt : (fseGo entries 0 (-1) maxUint64).2 < maxUint64 :=
        Nat.lt_of_le_of_ne s1 hne2
      obtain ⟨j, hj, hqj, hszj, -, -⟩ := s4 hlt
      exact hnoq j hj ⟨hqj, by rw [hszj]; exact hlt⟩
    have ht := s2 heqts
    simp only [findSmallestEncryptedIndex, hlen, if_false, ht, if_pos]
  · rintro ⟨k, hk, hqk, hszk⟩
    have hlen : ¬ entries.length = 0 := by omega
    have hlt : (fseGo entries 0 (-1) maxUint64).2 < maxUint64 := by
      have := s3 k hk hqk
      omega
    obtain ⟨j, hj, hqj, hszj, hidx, hearly⟩ := s4 hlt
    have hne1 : ¬ (fseGo entries 0 (-1) maxUint64).1 = -1 := by
      rw [hidx]; omega
    refine ⟨j, ?_, hj, hqj, ?_, ?_⟩
    · simp only [findSmallestEncryptedIndex, hlen, if_false, hne1]
      rw [hidx]
      exact congrArg Except.ok (congrArg Int.ofNat (by omega))
    · intro k2 hk2 hq2
      have := s3 k2 hk2 hq2
      omega
    · intro k2 hk2 hq2
      have := hearly k2 hk2 hq2
      omega

/-- Witness for the selection case of C2 at a concrete archive: sizes
`[5, 3]` on encrypted files plus an encrypted directory; index 1 wins. -/
theorem C2_target_selection_witness :
    ∃ j : Nat,
      findSmallestEncryptedIndex
          [⟨false, true, 5⟩, ⟨false, true, 3⟩, ⟨true, true, 1⟩] = .ok (j : Int) ∧
      j < ([⟨false, true, 5⟩, ⟨false, true, 3⟩, ⟨true, true, 1⟩] : List ZipEntry).length ∧
      qualifies (([⟨false, true, 5⟩, ⟨false, true, 3⟩,
        ⟨true, true, 1⟩] : List ZipEntry).getD j ⟨true, false, 0⟩) = true ∧
      (∀ k, k < ([⟨false, true, 5⟩, ⟨false, true, 3⟩, ⟨true, true, 1⟩] : List ZipEntry).length →
        qualifies (([⟨false, true, 5⟩, ⟨false, true, 3⟩,
          ⟨true, true, 1⟩] : List ZipEntry).getD k ⟨true, false, 0⟩) = true →
        (([⟨false, true, 5⟩, ⟨false, true, 3⟩,
          ⟨true, true, 1⟩] : List ZipEntry).getD j ⟨true, false, 0⟩).uncompressedSize64 ≤
          (([⟨false, true, 5⟩, ⟨false, true, 3⟩,
            ⟨true, true, 1⟩] : List ZipEntry).getD k ⟨true, false, 0⟩).uncompressedSize64) ∧
      (∀ k, k < j →
        qualifies (([⟨false, true, 5⟩, ⟨false, true, 3⟩,
          ⟨true, true, 1⟩] : List ZipEntry).getD k ⟨true, false, 0⟩) = true →
        (([⟨false, true, 5⟩, ⟨false, true, 3⟩,
          ⟨true, true, 1⟩] : List ZipEntry).getD j ⟨true, false, 0⟩).uncompressedSize64 <
          (([⟨false, true, 5⟩, ⟨false, true, 3⟩,
            ⟨true, true, 1⟩] : List ZipEntry).getD k ⟨true, false, 0⟩).uncompressedSize64) :=
  (C2_target_selection [⟨false, true, 5⟩, ⟨false, true, 3⟩, ⟨true, true, 1⟩]).2.2
    ⟨1, by decide, by decide, by decide⟩

/-! ## Theorems: C7 (header parser) -/

/-- C7 evidence: at the 26-byte crafted buffer `badZipBytes`, the central
directory walk passes the loop bound check — `uint32(len(zipBytes)-46)`
wraps to a huge value for buffers shorter than 46 bytes — and the read of
the 4-byte uncompressed-size field at offset 24 runs past the end of the
buffer: a Go runtime panic, not a returned error. -/
theorem C7_parseZipHeaders_out_of_bounds :
    badZipBytes.length = 26 ∧ parseZipHeaders badZipBytes = .oob := by
  constructor
  · rfl
  · rfl

end ZipCrack
